import Mathlib

/-!
Verification development for the LazyDB storage-engine core (`db.go`).

The Go source is embedded shallowly: machine integers (`uint32`) become `Nat`
with explicit `% 2^32` where a conversion truncates, byte strings become
`List Nat`, Go maps keyed by fid become association lists read through
`List.lookup`, and the per-category mutable state (`fidsMap`,
`activeLogFileMap`, `archivedLogFile`) becomes an explicit `CatState` record
that functions thread through.  Categories (`valueType`) are `Fin 5`
(`logFileTypeNum = 5` in the source).  Pieces of the repository that are not
part of the provided source core (the `logfile` package internals, the write
path `writeLogEntry`, `getActiveLogFile`, and `encodeKey`/`decodeKey`) are
modelled from the specification and marked as such in their doc comments.
-/

namespace LazyDB

/-- A log segment: the `logfile.LogFile` handle reduced to its fid and the
byte content of the underlying file (`Fid` field plus file bytes). -/
structure LogFile where
  fid : Nat
  content : List Nat
deriving DecidableEq

/-- Per-category slice of the engine state from `db.go`:
`fidsMap[typ].fids` (the fid registry slice), `activeLogFileMap[typ]`
(the active segment, absent when the category has none yet), and
`archivedLogFile[typ]` (the fid-keyed archived-segment map, as an
association list). -/
structure CatState where
  fids : List Nat
  active : Option LogFile
  archived : List (Nat × LogFile)
deriving DecidableEq

/-- `sort.Slice(fids, func(i, j int) bool { return fids[i] < fids[j] })`:
any comparison sort with this ordering produces the unique `≤`-sorted
permutation of a list of naturals, which insertion sort computes. -/
def sortFids (l : List Nat) : List Nat := List.insertionSort (· ≤ ·) l

/-- The loop body of `build` in `buildLogFiles` (db.go:181-194): iterate over
the sorted fids, opening each segment from disk; the entry at the last index
(`i == len(fids)-1`) becomes the active log file, every earlier one is put
into the archived map. `disk` gives the on-disk content of the segment file
for each fid. -/
def placeFids (disk : Nat → List Nat) : List Nat → Option LogFile × List (Nat × LogFile)
  | [] => (none, [])
  | [f] => (some ⟨f, disk f⟩, [])
  | f :: g :: rest =>
      let p := placeFids disk (g :: rest)
      (p.1, (f, ⟨f, disk f⟩) :: p.2)

/-- The per-category closure `build` of `buildLogFiles` (db.go:170-195):
given the fids discovered for the category by the directory scan, return
early if there are none; otherwise sort ascending (in place, so the registry
slice ends up sorted) and open every fid, the largest becoming active and the
rest archived. -/
def buildCat (disk : Nat → List Nat) (discovered : List Nat) : CatState :=
  if discovered.isEmpty then
    { fids := discovered, active := none, archived := [] }
  else
    let fids := sortFids discovered
    let p := placeFids disk fids
    { fids := fids, active := p.1, archived := p.2 }

/-- Modelled from the spec: `logfile.FilePrefix`, the common prefix of
segment file names (§6: one file per (category, fid) pair, named to encode
both); the `logfile` package is not part of the provided source. -/
def filePref : String := "log."

/-- Modelled from the spec: `logfile.FileTypesMap`, mapping the category
field of a segment file name to the category tag.  A Go map lookup of a
missing key yields the zero value, so unknown category strings map to `0`. -/
def fileTypesMap (s : List Char) : Nat :=
  if s = "strs".data then 0
  else if s = "list".data then 1
  else if s = "hash".data then 2
  else if s = "sets".data then 3
  else if s = "zset".data then 4
  else 0

/-- Digit run of `strconv.Atoi`: accumulates a base-10 value, failing on any
non-digit character. -/
def digitsVal : List Char → Nat → Option Nat
  | [], acc => some acc
  | c :: rest, acc =>
      if c.isDigit then digitsVal rest (acc * 10 + (c.toNat - 48)) else none

/-- `strconv.Atoi`: an optional sign followed by at least one decimal digit;
anything else is an error (`none`).  Strings are embedded as their character
lists. -/
def atoi (s : List Char) : Option Int :=
  match s with
  | [] => none
  | '+' :: rest => if rest.isEmpty then none else (digitsVal rest 0).map Int.ofNat
  | '-' :: rest => if rest.isEmpty then none else (digitsVal rest 0).map (fun n => -(n : Int))
  | l => (digitsVal l 0).map Int.ofNat

/-- Go's `uint32(i)` conversion from `int`: truncation to 32 bits, i.e. the
value modulo `2^32` (nonnegative because the modulus is positive). -/
def uint32ofInt (i : Int) : Nat := (i % (2 ^ 32 : Int)).toNat

/-- `strings.HasPrefix(s, pre)`: the first `len(pre)` characters of `s`
equal `pre`. -/
def hasPref (s pre : List Char) : Bool := s.take pre.length == pre

/-- `strings.Split(s, sep)` for a one-character separator: the substrings
between occurrences of `sep` (never empty as a list; splitting the empty
string yields one empty field, as in Go). -/
def splitChars (sep : Char) : List Char → List (List Char)
  | [] => [[]]
  | c :: rest =>
      let r := splitChars sep rest
      if c = sep then [] :: r
      else (c :: r.headD []) :: r.tail

/-- Filename handling of the scan loop in `buildLogFiles` (db.go:151-167):
skip names without the log-file prefix; split on `"."` and skip (with a
warning) unless there are exactly 3 fields; map field 1 through
`fileTypesMap`; parse field 2 with `strconv.Atoi`, skipping (with a warning)
on error; otherwise record `(category, uint32(fid))`. -/
def parseFileName (name : String) : Option (Nat × Nat) :=
  if hasPref name.data filePref.data then
    let splitInfo := splitChars '.' name.data
    if splitInfo.length = 3 then
      let typ := fileTypesMap (splitInfo.getD 1 [])
      match atoi (splitInfo.getD 2 []) with
      | some fid => some (typ, uint32ofInt fid)
      | none => none
    else none
  else none

/-- The directory-scan loop of `buildLogFiles`: the fids appended to
`fidsMap[t].fids`, in directory order, for category `t`. -/
def scanFiles (files : List String) (t : Fin 5) : List Nat :=
  files.foldl
    (fun acc name =>
      match parseFileName name with
      | some (typ, fid) => if typ = t.val then acc ++ [fid] else acc
      | none => acc)
    []

/-- `buildLogFiles` after a successful `os.ReadDir`: scan the directory once,
then run `build` for every category (db.go:146-199). -/
def buildAll (disk : Fin 5 → Nat → List Nat) (files : List String) : Fin 5 → CatState :=
  fun t => buildCat (disk t) (scanFiles files t)

/-- `buildLogFiles` as a whole: it can fail only when `os.ReadDir` fails
(`readDir = none`); every file list is processed without error. -/
def buildLogFilesModel (readDir : Option (List String)) (disk : Fin 5 → Nat → List Nat) :
    Except String (Fin 5 → CatState) :=
  match readDir with
  | none => Except.error "ReadDir"
  | some files => Except.ok (buildAll disk files)

/-- Modelled from the spec: `getActiveLogFile` is not part of the provided
source (only its callers in the test are).  Per §4.3, a category with no
active segment gets a freshly minted one, where minting hands out
`max(known fids) + 1` (so fid `1` when no fid is known), and the minted fid
is recorded in the registry. -/
def getActiveLogFile (st : CatState) : CatState × LogFile :=
  match st.active with
  | some lf => (st, lf)
  | none =>
      let f := st.fids.getLast?.getD 0 + 1
      ({ fids := st.fids ++ [f], active := some ⟨f, []⟩, archived := st.archived }, ⟨f, []⟩)

/-- Position record returned by the write path (`ValuePos` in db.go). -/
structure ValuePos where
  fid : Nat
  offset : Nat
  entrySize : Nat
deriving DecidableEq

/-- Modelled from the spec: the per-category write path `writeEntry` (§4.2);
`writeLogEntry` and the `logfile` append are not part of the provided source.
If appending the encoded bytes to the active segment would exceed the
configured max segment size, first rotate — mint a new fid from the registry
(`max(known) + 1`), move the current active segment into `archived`, open a
new empty segment with the new fid as active — then append, returning the
resulting position. -/
def writeEntry (maxSize : Nat) (st : CatState) (entry : List Nat) : CatState × ValuePos :=
  let p := getActiveLogFile st
  let st1 := p.1
  let lf := p.2
  if lf.content.length + entry.length > maxSize then
    let nf := st1.fids.getLast?.getD 0 + 1
    ({ fids := st1.fids ++ [nf],
       active := some ⟨nf, entry⟩,
       archived := st1.archived ++ [(lf.fid, lf)] },
     ⟨nf, 0, entry.length⟩)
  else
    ({ st1 with active := some ⟨lf.fid, lf.content ++ entry⟩ },
     ⟨lf.fid, lf.content.length, entry.length⟩)

/-- Modelled from the spec: `readAt` of a single segment (§4.1) — fails when
the requested range is out of bounds, otherwise returns the bytes at
`[offset, offset+length)`. -/
def readSeg (lf : LogFile) (off len : Nat) : Option (List Nat) :=
  if off + len ≤ lf.content.length then some ((lf.content.drop off).take len) else none

/-- Modelled from the spec: the category-level `readAt(fid, offset, length)`
(§4.2) — if `fid` matches the active segment read from it, otherwise look
`fid` up in the archived map, failing when it is absent. -/
def readAtCat (st : CatState) (f off len : Nat) : Option (List Nat) :=
  match st.active with
  | some lf =>
      if f = lf.fid then readSeg lf off len
      else
        match List.lookup f st.archived with
        | some alf => readSeg alf off len
        | none => none
  | none =>
      match List.lookup f st.archived with
      | some alf => readSeg alf off len
      | none => none

/-- Well-formedness of a per-category state, maintained by recovery and by
every write: the registry is strictly sorted, the active segment (when the
registry is nonempty) carries the registry's last fid, the archived map holds
exactly the non-last registry fids in order, and each archived entry is keyed
by its segment's own fid. -/
def GoodState (st : CatState) : Prop :=
  List.Sorted (· < ·) st.fids ∧
  st.active.map LogFile.fid = st.fids.getLast? ∧
  st.archived.map Prod.fst = st.fids.dropLast ∧
  ∀ p ∈ st.archived, p.1 = p.2.fid

/-- The category state right after recovery over an empty directory. -/
def initCat : CatState := buildCat (fun _ => []) []

/-- The category state reached from a fresh engine (empty directory) by a
sequence of writes with max segment size `maxSize`. -/
def runWrites (maxSize : Nat) (es : List (List Nat)) : CatState :=
  es.foldl (fun st e => (writeEntry maxSize st e).1) initCat

/-- The on-disk bytes of the category's segment files as determined by the
in-memory state: appends go through to the file, so the file for the active
fid holds the active content and the file for an archived fid holds that
archived segment's content. -/
def diskOf (st : CatState) (f : Nat) : List Nat :=
  match st.active with
  | some lf =>
      if f = lf.fid then lf.content
      else ((List.lookup f st.archived).map LogFile.content).getD []
  | none => ((List.lookup f st.archived).map LogFile.content).getD []

/-- Reopening the engine against the same directory: `Close` writes and
removes nothing, so the directory still holds one file per registry fid and
recovery (`buildCat`) runs over exactly those fids with the on-disk bytes. -/
def reopen (st : CatState) : CatState :=
  buildCat (diskOf st) st.fids

/-- The loop of `Sync` (db.go:203-212): iterate over the active log files
(in Go's map iteration order, taken as the list order here), syncing each;
on the first sync error return it immediately, otherwise return `nil`.
`res` gives each segment's sync outcome; the returned list records which
segments the loop called sync on. -/
def syncModel (res : LogFile → Option String) : List LogFile → List LogFile × Option String
  | [] => ([], none)
  | lf :: rest =>
      match res lf with
      | some e => ([lf], some e)
      | none =>
          let p := syncModel res rest
          (lf :: p.1, p.2)

/-- The whole `LazyDB` struct reduced to its data: per-category segment
state plus the index structures.  The `ds` package is not part of the
provided source, so the sharded map and radix-tree indexes are modelled from
the spec as key-to-position association lists (their contents are irrelevant
to the claims below, which only require that `Close` leaves them untouched). -/
structure DB where
  cats : Fin 5 → CatState
  index : List (String × ValuePos)
  strIdx : List (List Nat × ValuePos)
  hashIdx : List (List Nat × ValuePos)
  listIdx : List (List Nat × ValuePos)

/-- `Close` (db.go:215-217): `return nil` — no segment is synced or closed
and no field of the receiver is touched. -/
def closeDB (db : DB) : DB × Option String := (db, none)

/-- Possible outcomes of `Open`: `log.Fatalf` calls `os.Exit(1)`, so a
failing branch aborts the process (`fatalAbort`) and never reaches its
`return nil, err` statement; otherwise `Open` returns a database pointer and
an error value to the caller (`returned`). -/
inductive OpenOutcome where
  | fatalAbort : OpenOutcome
  | returned : Option (Fin 5 → CatState) → Option String → OpenOutcome

/-- `Open` (db.go:106-142): create the directory when absent, aborting
fatally when creation fails; construct the empty engine; run
`buildLogFiles`, aborting fatally when it fails (and likewise
`buildLogFiles` itself aborts fatally when `logfile.Open` fails on a
discovered segment, `segOpenOk = false`); otherwise return the engine and a
`nil` error. -/
def openModel (pathExists mkdirOk segOpenOk : Bool) (readDir : Option (List String))
    (disk : Fin 5 → Nat → List Nat) : OpenOutcome :=
  if !pathExists && !mkdirOk then OpenOutcome.fatalAbort
  else if !segOpenOk then OpenOutcome.fatalAbort
  else
    match readDir with
    | none => OpenOutcome.fatalAbort
    | some files => OpenOutcome.returned (some (buildAll disk files)) none

/-- Little-endian base-128 varint encoding of a natural number: low 7 bits
per byte, high bit set on all but the final byte. -/
def varintEncode (n : Nat) : List Nat :=
  if h : n < 128 then [n]
  else (n % 128 + 128) :: varintEncode (n / 128)
termination_by n
decreasing_by
  exact Nat.div_lt_self (by omega) (by omega)

/-- Varint decoding: returns the decoded number and the remaining bytes. -/
def varintDecode : List Nat → Option (Nat × List Nat)
  | [] => none
  | b :: rest =>
      if b < 128 then some (b, rest)
      else
        match varintDecode rest with
        | none => none
        | some p => some (b - 128 + 128 * p.1, p.2)

/-- Modelled from the spec: `encodeKey` (§4.5) — the function itself is not
part of the provided source (only its test is).  The outer key and inner
subkey are concatenated behind an unambiguous length-prefixed header (the
source reserves a 10-byte header for two varint lengths,
`encodeHeaderSize = 10`). -/
def encodeKey (key subKey : List Nat) : List Nat :=
  varintEncode key.length ++ varintEncode subKey.length ++ key ++ subKey

/-- Modelled from the spec: `decodeKey` (§4.5) — read the two length
varints, then split the remaining bytes at the outer key's length. -/
def decodeKey (b : List Nat) : Option (List Nat × List Nat) :=
  match varintDecode b with
  | none => none
  | some kp =>
      match varintDecode kp.2 with
      | none => none
      | some sp => some (sp.2.take kp.1, sp.2.drop kp.1)

/-! ### Helper lemmas -/

/-- Deciding well-formedness of a concrete category state. -/
instance (st : CatState) : Decidable (GoodState st) := by
  unfold GoodState
  infer_instance

theorem lookup_map_mk (disk : Nat → List Nat) (l : List Nat) (f : Nat) :
    List.lookup f (l.map (fun g => (g, (⟨g, disk g⟩ : LogFile)))) =
      if f ∈ l then some ⟨f, disk f⟩ else none := by
  induction l with
  | nil => simp
  | cons a l ih =>
      by_cases hfa : f = a
      · subst hfa
        simp [List.lookup]
      · have hb : (f == a) = false := beq_false_of_ne hfa
        simp [List.lookup, hb, ih, hfa]

theorem lookup_isSome_iff_mem_keys (l : List (Nat × LogFile)) (f : Nat) :
    (List.lookup f l).isSome ↔ f ∈ l.map Prod.fst := by
  induction l with
  | nil => simp
  | cons p l ih =>
      obtain ⟨k, v⟩ := p
      by_cases hfp : f = k
      · subst hfp
        simp [List.lookup]
      · have hb : (f == k) = false := beq_false_of_ne hfp
        simp [List.lookup, hb, ih, hfp]

theorem lookup_eq_some_mem {l : List (Nat × LogFile)} {f : Nat} {v : LogFile}
    (h : List.lookup f l = some v) : (f, v) ∈ l := by
  induction l with
  | nil => simp at h
  | cons p l ih =>
      obtain ⟨k, v⟩ := p
      by_cases hfp : f = k
      · subst hfp
        simp [List.lookup] at h
        simp [← h]
      · have hb : (f == k) = false := beq_false_of_ne hfp
        simp [List.lookup, hb] at h
        exact List.mem_cons_of_mem _ (ih h)

theorem lookup_append_last {l : List (Nat × LogFile)} {f : Nat} (v : LogFile)
    (h : f ∉ l.map Prod.fst) : List.lookup f (l ++ [(f, v)]) = some v := by
  induction l with
  | nil => simp [List.lookup]
  | cons p l ih =>
      obtain ⟨k, v⟩ := p
      simp only [List.map_cons, List.mem_cons, not_or] at h
      have hb : (f == k) = false := beq_false_of_ne h.1
      simp [List.lookup, hb, ih h.2]

theorem sorted_le_getLast {l : List Nat} {m : Nat} (hs : List.Sorted (· ≤ ·) l)
    (hl : l.getLast? = some m) : ∀ x ∈ l, x ≤ m := by
  induction l with
  | nil => simp at hl
  | cons a l ih =>
      intro x hx
      rcases List.mem_cons.mp hx with hxa | hxl
      · subst hxa
        cases l with
        | nil =>
            simp at hl
            omega
        | cons b l =>
            have hm : m ∈ b :: l := List.mem_of_mem_getLast? (by simpa using hl)
            exact (List.sorted_cons.mp hs).1 m hm
      · cases l with
        | nil => simp at hxl
        | cons b l =>
            exact ih (List.sorted_cons.mp hs).2 (by simpa using hl) x hxl

theorem mem_dropLast_iff {l : List Nat} {m f : Nat} (hnd : l.Nodup)
    (hl : l.getLast? = some m) : f ∈ l.dropLast ↔ f ∈ l ∧ f ≠ m := by
  have hne : l ≠ [] := by
    intro h
    subst h
    simp at hl
  have hm : l.getLast hne = m := by
    have := List.getLast?_eq_getLast l hne
    rw [this] at hl
    exact (Option.some.injEq _ _).mp hl
  have hsplit : l.dropLast ++ [m] = l := by
    rw [← hm]
    exact List.dropLast_append_getLast hne
  constructor
  · intro hf
    have hdn := hnd
    rw [← hsplit] at hdn
    rcases List.nodup_append.mp hdn with ⟨_, _, hdisj⟩
    refine ⟨?_, ?_⟩
    · rw [← hsplit]
      exact List.mem_append_left _ hf
    · intro hfm
      exact hdisj hf (by simp [hfm])
  · rintro ⟨hf, hfm⟩
    rw [← hsplit] at hf
    rcases List.mem_append.mp hf with h | h
    · exact h
    · simp at h
      exact absurd h hfm

theorem placeFids_eq (disk : Nat → List Nat) :
    ∀ (l : List Nat), l ≠ [] →
      placeFids disk l =
        ((l.getLast?).map (fun m => (⟨m, disk m⟩ : LogFile)),
          l.dropLast.map (fun f => (f, (⟨f, disk f⟩ : LogFile))))
  | [], h => absurd rfl h
  | [f], _ => rfl
  | f :: g :: rest, _ => by
      have ih := placeFids_eq disk (g :: rest) (by simp)
      simp only [placeFids, ih, List.getLast?_cons_cons, List.dropLast_cons₂, List.map_cons]

theorem sorted_lt_concat {l : List Nat} {m : Nat} (hs : List.Sorted (· < ·) l)
    (hl : l.getLast? = some m) : List.Sorted (· < ·) (l ++ [m + 1]) := by
  rw [List.Sorted, List.pairwise_append]
  refine ⟨hs, List.pairwise_singleton _ _, ?_⟩
  intro a ha b hb
  have hle := sorted_le_getLast (hs.imp (fun hab => le_of_lt hab)) hl a ha
  simp only [List.mem_singleton] at hb
  omega

theorem getActive_good {st : CatState} (hg : GoodState st) :
    GoodState (getActiveLogFile st).1 ∧
    (getActiveLogFile st).1.active = some (getActiveLogFile st).2 ∧
    (getActiveLogFile st).1.fids.getLast? = some ((getActiveLogFile st).2).fid := by
  obtain ⟨hsort, hact, hkeys, hpair⟩ := hg
  cases hactive : st.active with
  | some lf =>
      rw [hactive] at hact
      have hga : getActiveLogFile st = (st, lf) := by
        unfold getActiveLogFile
        rw [hactive]
      rw [hga]
      exact ⟨⟨hsort, by rw [hactive]; exact hact, hkeys, hpair⟩, hactive,
        by rw [← hact]; rfl⟩
  | none =>
      rw [hactive] at hact
      have hlast : st.fids.getLast? = none := by rw [← hact]; rfl
      have hfids : st.fids = [] := List.getLast?_eq_none_iff.mp hlast
      have harch : st.archived = [] := by
        apply List.map_eq_nil_iff.mp
        rw [hkeys, hfids]
        rfl
      have hga : getActiveLogFile st =
          ({ fids := [1], active := some ⟨1, []⟩, archived := [] }, ⟨1, []⟩) := by
        unfold getActiveLogFile
        rw [hactive, hfids, harch]
        rfl
      rw [hga]
      refine ⟨⟨?_, ?_, ?_, ?_⟩, rfl, rfl⟩ <;> simp

theorem writeEntry_eq (S : Nat) (st : CatState) (e : List Nat) :
    writeEntry S st e =
      if ((getActiveLogFile st).2).content.length + e.length > S then
        ({ fids := (getActiveLogFile st).1.fids ++
              [(getActiveLogFile st).1.fids.getLast?.getD 0 + 1],
           active := some ⟨(getActiveLogFile st).1.fids.getLast?.getD 0 + 1, e⟩,
           archived := (getActiveLogFile st).1.archived ++
              [(((getActiveLogFile st).2).fid, (getActiveLogFile st).2)] },
         ⟨(getActiveLogFile st).1.fids.getLast?.getD 0 + 1, 0, e.length⟩)
      else
        ({ (getActiveLogFile st).1 with
            active := some ⟨((getActiveLogFile st).2).fid,
              ((getActiveLogFile st).2).content ++ e⟩ },
         ⟨((getActiveLogFile st).2).fid, ((getActiveLogFile st).2).content.length,
           e.length⟩) := rfl

theorem writeEntry_good {st : CatState} (S : Nat) (e : List Nat) (hg : GoodState st) :
    GoodState (writeEntry S st e).1 := by
  obtain ⟨hg1, hact1, hlast1⟩ := getActive_good hg
  obtain ⟨hsort1, hmap1, hkeys1, hpair1⟩ := hg1
  rw [writeEntry_eq]
  generalize hq : getActiveLogFile st = q at hact1 hlast1 hsort1 hmap1 hkeys1 hpair1 ⊢
  obtain ⟨st1, lf⟩ := q
  simp only at hact1 hlast1 hsort1 hmap1 hkeys1 hpair1 ⊢
  have hne1 : st1.fids ≠ [] := by
    intro h
    rw [h] at hlast1
    simp at hlast1
  have hnf : st1.fids.getLast?.getD 0 + 1 = lf.fid + 1 := by
    rw [hlast1]
    rfl
  by_cases hover : lf.content.length + e.length > S
  · rw [if_pos hover]
    refine ⟨?_, ?_, ?_, ?_⟩
    · simp only [hnf]
      exact sorted_lt_concat hsort1 hlast1
    · simp only [Option.map_some]
      rw [List.getLast?_concat]
      simp
    · simp only [List.map_append, hkeys1, List.dropLast_concat]
      have hgl : st1.fids.getLast hne1 = lf.fid := by
        have h := List.getLast?_eq_getLast st1.fids hne1
        rw [h] at hlast1
        exact (Option.some.injEq _ _).mp hlast1
      calc st1.fids.dropLast ++ List.map Prod.fst [(lf.fid, lf)]
          = st1.fids.dropLast ++ [st1.fids.getLast hne1] := by rw [hgl]; rfl
        _ = st1.fids := List.dropLast_append_getLast hne1
    · intro p hp
      rcases List.mem_append.mp hp with h | h
      · exact hpair1 p h
      · simp at h
        rw [h]
  · rw [if_neg hover]
    exact ⟨hsort1, by simpa using hlast1.symm, hkeys1, hpair1⟩

theorem runWrites_good (S : Nat) (es : List (List Nat)) : GoodState (runWrites S es) := by
  have h : ∀ (l : List (List Nat)) (st : CatState), GoodState st →
      GoodState (l.foldl (fun st e => (writeEntry S st e).1) st) := by
    intro l
    induction l with
    | nil => exact fun st h => h
    | cons e l ih => exact fun st h => ih _ (writeEntry_good S e h)
  exact h es initCat (by decide)

theorem readAtCat_some {st : CatState} {lf : LogFile} (h : st.active = some lf)
    (f off len : Nat) :
    readAtCat st f off len =
      if f = lf.fid then readSeg lf off len
      else
        match List.lookup f st.archived with
        | some alf => readSeg alf off len
        | none => none := by
  unfold readAtCat
  rw [h]

theorem reopen_good_eq {st : CatState} (hg : GoodState st) :
    (reopen st).active.map LogFile.fid = st.active.map LogFile.fid ∧
    ∀ f, f ∈ st.archived.map Prod.fst →
      (List.lookup f (reopen st).archived).isSome ∧
      ∀ off len, readAtCat (reopen st) f off len = readAtCat st f off len := by
  obtain ⟨hsort, hact, hkeys, hpair⟩ := hg
  by_cases hne : st.fids = []
  · have hactive : st.active = none := by
      cases hactive : st.active with
      | none => rfl
      | some lf =>
          rw [hactive, hne] at hact
          simp at hact
    have harch : st.archived = [] := by
      apply List.map_eq_nil_iff.mp
      rw [hkeys, hne]
      rfl
    constructor
    · rw [reopen, hne, hactive]
      rfl
    · intro f hf
      rw [harch] at hf
      simp at hf
  · have hsortle : List.Sorted (· ≤ ·) st.fids := hsort.imp (fun hab => le_of_lt hab)
    have hlast : st.fids.getLast? = some (st.fids.getLast hne) :=
      List.getLast?_eq_getLast _ hne
    set m := st.fids.getLast hne with hm
    obtain ⟨lf, hactive, hlffid⟩ : ∃ lf, st.active = some lf ∧ lf.fid = m := by
      cases hactive : st.active with
      | none =>
          rw [hactive, hlast] at hact
          simp at hact
      | some lf =>
          rw [hactive, hlast] at hact
          exact ⟨lf, rfl, by simpa using hact⟩
    have hbuild : reopen st =
        { fids := st.fids,
          active := (st.fids.getLast?).map (fun v => (⟨v, diskOf st v⟩ : LogFile)),
          archived := st.fids.dropLast.map
            (fun f => (f, (⟨f, diskOf st f⟩ : LogFile))) } := by
      rw [reopen, buildCat, if_neg (by simpa using hne)]
      rw [show sortFids st.fids = st.fids from hsortle.insertionSort_eq]
      simp [placeFids_eq (diskOf st) _ hne]
    have hdiskm : diskOf st m = lf.content := by
      simp [diskOf, hactive, hlffid]
    have hnd : st.fids.Nodup := hsort.nodup
    constructor
    · rw [hbuild, hactive]
      simp [hlast, hdiskm, hlffid]
    · intro f hf
      rw [hkeys] at hf
      have hfm : f ∈ st.fids ∧ f ≠ m := (mem_dropLast_iff hnd hlast).mp hf
      have hlook : List.lookup f st.archived ≠ none := by
        intro h
        have := (lookup_isSome_iff_mem_keys st.archived f).mpr (by rw [hkeys]; exact hf)
        rw [h] at this
        simp at this
      obtain ⟨alf, half⟩ : ∃ alf, List.lookup f st.archived = some alf := by
        cases h : List.lookup f st.archived with
        | none => exact absurd h hlook
        | some alf => exact ⟨alf, rfl⟩
      have halffid : alf.fid = f := (hpair (f, alf) (lookup_eq_some_mem half)).symm
      have hfne : ¬ f = lf.fid := by
        rw [hlffid]
        exact hfm.2
      have hdiskf : diskOf st f = alf.content := by
        simp [diskOf, hactive, hfne, half]
      have hlook' : List.lookup f (reopen st).archived = some ⟨f, alf.content⟩ := by
        rw [hbuild]
        simp only [lookup_map_mk, hdiskf]
        rw [if_pos hf]
      refine ⟨by rw [hlook']; rfl, ?_⟩
      intro off len
      have halfeta : alf = ⟨f, alf.content⟩ := by
        cases alf
        simp at halffid ⊢
        exact halffid
      have hactive' : (reopen st).active = some ⟨m, lf.content⟩ := by
        rw [hbuild]
        simp [hlast, hdiskm]
      rw [readAtCat_some hactive' f off len, readAtCat_some hactive f off len]
      rw [if_neg hfm.2, if_neg hfne, hlook', half]
      conv_rhs => rw [halfeta]

/-! ### Claim theorems -/

theorem varintDecode_encode (n : Nat) (rest : List Nat) :
    varintDecode (varintEncode n ++ rest) = some (n, rest) := by
  induction n using Nat.strong_induction_on with
  | _ n ih =>
    rw [varintEncode]
    by_cases h : n < 128
    · rw [dif_pos h]
      simp [varintDecode, h]
    · rw [dif_neg h]
      have hdiv : n / 128 < n := Nat.div_lt_self (by omega) (by omega)
      have hge : ¬ (n % 128 + 128 < 128) := by omega
      rw [List.cons_append, varintDecode, if_neg hge, ih _ hdiv]
      have harith : n % 128 + 128 - 128 + 128 * (n / 128) = n := by omega
      show some (n % 128 + 128 - 128 + 128 * (n / 128), rest) = some (n, rest)
      rw [harith]

theorem decodeKey_encodeKey (key subKey : List Nat) :
    decodeKey (encodeKey key subKey) = some (key, subKey) := by
  unfold encodeKey decodeKey
  rw [List.append_assoc, List.append_assoc, varintDecode_encode]
  simp only [varintDecode_encode]
  rw [List.take_left, List.drop_left]

/-- C4: the composite-key round-trip law — decoding an encoded
(outer, inner) pair returns exactly that pair (including when both are
empty), and the encoding is injective: distinct pairs never encode to the
same byte string. -/
theorem encodeKey_roundtrip_injective (outer inner o2 i2 : List Nat) :
    decodeKey (encodeKey outer inner) = some (outer, inner) ∧
    (encodeKey outer inner = encodeKey o2 i2 → outer = o2 ∧ inner = i2) := by
  refine ⟨decodeKey_encodeKey outer inner, fun h => ?_⟩
  have h2 := congrArg decodeKey h
  rw [decodeKey_encodeKey, decodeKey_encodeKey] at h2
  simpa using h2

/-- C4 witness: the round-trip law at the empty/empty pair (the edge case)
and injectivity instantiated at a concrete collision-free equation. -/
theorem encodeKey_roundtrip_injective_witness :
    decodeKey (encodeKey [] []) = some ([], []) ∧
    (([] : List Nat) = [] ∧ ([] : List Nat) = []) :=
  ⟨(encodeKey_roundtrip_injective [] [] [] []).1,
    (encodeKey_roundtrip_injective [] [] [] []).2 rfl⟩

/-- C6: `Sync` flushes the active segment of every category (here: every
entry the loop ranges over), returning `nil` when every per-segment sync
succeeds; on a failing segment it returns that error immediately, without
attempting any of the remaining segments (the attempted list stops at the
failure, whatever comes after). -/
theorem sync_all_or_first_failure (res : LogFile → Option String)
    (l pre post : List LogFile) (x : LogFile) (e : String) :
    ((∀ lf ∈ l, res lf = none) → syncModel res l = (l, none)) ∧
    ((∀ lf ∈ pre, res lf = none) → res x = some e →
      syncModel res (pre ++ x :: post) = (pre ++ [x], some e)) := by
  constructor
  · intro h
    induction l with
    | nil => rfl
    | cons lf rest ih =>
        have hlf : res lf = none := h lf (List.mem_cons_self lf rest)
        have hrest := ih (fun g hg => h g (List.mem_cons_of_mem lf hg))
        simp [syncModel, hlf, hrest]
  · intro hpre hx
    induction pre with
    | nil => simp [syncModel, hx]
    | cons lf rest ih =>
        have hlf : res lf = none := hpre lf (List.mem_cons_self lf rest)
        have hrest := ih (fun g hg => hpre g (List.mem_cons_of_mem lf hg))
        simp [syncModel, hlf, hrest]

/-- C6 witness: with segments 1, 2, 3 where segment 2's sync fails, `Sync`
over all-successes returns `nil` and over the failing sequence stops at
segment 2 without attempting segment 3. -/
theorem sync_all_or_first_failure_witness :
    syncModel (fun lf => if lf.fid = 2 then some "boom" else none)
        [(⟨1, []⟩ : LogFile)] = ([⟨1, []⟩], none) ∧
    syncModel (fun lf => if lf.fid = 2 then some "boom" else none)
        ([(⟨1, []⟩ : LogFile)] ++ (⟨2, []⟩ : LogFile) :: [(⟨3, []⟩ : LogFile)]) =
      ([⟨1, []⟩] ++ [⟨2, []⟩], some "boom") :=
  ⟨(sync_all_or_first_failure (fun lf => if lf.fid = 2 then some "boom" else none)
      [⟨1, []⟩] [⟨1, []⟩] [⟨3, []⟩] ⟨2, []⟩ "boom").1 (by decide),
   (sync_all_or_first_failure (fun lf => if lf.fid = 2 then some "boom" else none)
      [⟨1, []⟩] [⟨1, []⟩] [⟨3, []⟩] ⟨2, []⟩ "boom").2 (by decide) (by decide)⟩

/-- C7: during recovery, a directory entry whose name lacks the log-file
prefix, or does not split into exactly three dot-separated fields, or whose
fid field is not numeric, is skipped: it contributes no fid to any
category's scan result, and recovery (`buildLogFiles`) still succeeds on any
file list containing it. -/
theorem malformed_file_names_skipped (name : String) (files : List String)
    (disk : Fin 5 → Nat → List Nat)
    (h : hasPref name.data filePref.data = false ∨
      (splitChars '.' name.data).length ≠ 3 ∨
      atoi ((splitChars '.' name.data).getD 2 []) = none) :
    parseFileName name = none ∧
    (∀ t, scanFiles (name :: files) t = scanFiles files t) ∧
    buildLogFilesModel (some (name :: files)) disk =
      Except.ok (buildAll disk (name :: files)) := by
  have hparse : parseFileName name = none := by
    unfold parseFileName
    rcases h with h | h | h
    · rw [h]
      rfl
    · by_cases hp : hasPref name.data filePref.data
      · rw [if_pos hp]
        simp only [if_neg h]
      · rw [if_neg (by simpa using hp)]
    · by_cases hp : hasPref name.data filePref.data
      · rw [if_pos hp]
        by_cases hl : (splitChars '.' name.data).length = 3
        · simp only [if_pos hl, h]
        · simp only [if_neg hl]
      · rw [if_neg (by simpa using hp)]
  refine ⟨hparse, ?_, rfl⟩
  intro t
  unfold scanFiles
  rw [List.foldl_cons, hparse]

/-- C7 witness: the names `"tmp"` (no prefix), `"log.strs"` (two fields)
and `"log.strs.x"` (non-numeric fid) are all skipped while `"log.strs.9"`
in the same directory is still discovered. -/
theorem malformed_file_names_skipped_witness :
    (hasPref "tmp".data filePref.data = false ∨
      (splitChars '.' "tmp".data).length ≠ 3 ∨
      atoi ((splitChars '.' "tmp".data).getD 2 []) = none) ∧
    parseFileName "tmp" = none ∧
    (∀ t, scanFiles ["tmp", "log.strs.9"] t = scanFiles ["log.strs.9"] t) ∧
    buildLogFilesModel (some ["tmp", "log.strs.9"]) (fun _ _ => []) =
      Except.ok (buildAll (fun _ _ => []) ["tmp", "log.strs.9"]) :=
  ⟨by decide,
    malformed_file_names_skipped "tmp" ["log.strs.9"] (fun _ _ => []) (by decide)⟩

/-- C8: whenever `Open` actually returns to its caller, the returned error
is `nil` and the returned engine is present — every failure branch
(directory creation failure, `buildLogFiles` failure, segment-open failure)
goes through `log.Fatalf`, which exits the process before the non-nil error
could be returned. -/
theorem open_returns_only_success (pathExists mkdirOk segOpenOk : Bool)
    (readDir : Option (List String)) (disk : Fin 5 → Nat → List Nat)
    (db : Option (Fin 5 → CatState)) (err : Option String)
    (h : openModel pathExists mkdirOk segOpenOk readDir disk =
      OpenOutcome.returned db err) :
    err = none ∧ db.isSome := by
  unfold openModel at h
  by_cases h1 : (!pathExists && !mkdirOk) = true
  · rw [if_pos h1] at h
    cases h
  · rw [if_neg h1] at h
    by_cases h2 : (!segOpenOk) = true
    · rw [if_pos h2] at h
      cases h
    · rw [if_neg h2] at h
      cases readDir with
      | none => cases h
      | some files =>
          cases h
          exact ⟨rfl, rfl⟩

/-- C8 witness: a successful `Open` over an existing directory with no
files returns the built engine and a `nil` error. -/
theorem open_returns_only_success_witness :
    (none : Option String) = none ∧
    (some (buildAll (fun _ _ => ([] : List Nat)) [])).isSome :=
  open_returns_only_success true true true (some []) (fun _ _ => [])
    (some (buildAll (fun _ _ => []) [])) none rfl

/-- C10: `Close` always returns `nil` and leaves the entire engine state
unchanged — the per-category segment state (fid registry, active and
archived maps) and every index structure of the returned engine are those of
the receiver, and nothing is synced or closed in between. -/
theorem close_returns_nil_and_preserves_state (db : DB) :
    closeDB db = (db, none) ∧
    (closeDB db).1.cats = db.cats ∧
    (closeDB db).1.index = db.index ∧
    (closeDB db).1.strIdx = db.strIdx ∧
    (closeDB db).1.hashIdx = db.hashIdx ∧
    (closeDB db).1.listIdx = db.listIdx :=
  ⟨rfl, rfl, rfl, rfl, rfl, rfl⟩

/-- C3 counterexample: for a category with zero discovered fids, recovery
(`buildLogFiles`'s `build`, which returns early on an empty fid list) leaves
no active segment at all — in particular the active segment's fid is not 1. -/
theorem buildCat_empty_leaves_no_active :
    ((buildCat (fun _ => []) []).active).map LogFile.fid ≠ some 1 := by
  decide

/-- C3 (amended): for every category with zero discovered fids, recovery
leaves the category with no active segment; the active segment with fid 1 is
freshly created only on the first access (`getActiveLogFile`). -/
theorem buildCat_empty_active_created_lazily (disk : Nat → List Nat) :
    (buildCat disk []).active = none ∧
    (getActiveLogFile (buildCat disk [])).1.active.map LogFile.fid = some 1 ∧
    ((getActiveLogFile (buildCat disk [])).2).fid = 1 :=
  ⟨rfl, rfl, rfl⟩

/-- C1: for every category whose directory scan discovers at least one fid
(the discovered fids being distinct, as fids of distinct segment files are),
after recovery the numerically largest discovered fid is the category's
active segment's fid, and the archived map contains exactly the other
discovered fids. -/
theorem buildCat_largest_active_rest_archived (disk : Nat → List Nat)
    (discovered : List Nat) (hne : discovered ≠ []) (hnd : discovered.Nodup) :
    ∃ m, m ∈ discovered ∧ (∀ x ∈ discovered, x ≤ m) ∧
      (buildCat disk discovered).active.map LogFile.fid = some m ∧
      ∀ f, (List.lookup f (buildCat disk discovered).archived).isSome ↔
        (f ∈ discovered ∧ f ≠ m) := by
  have hperm : List.Perm (sortFids discovered) discovered :=
    List.perm_insertionSort (· ≤ ·) discovered
  have hsorted : List.Sorted (· ≤ ·) (sortFids discovered) :=
    List.sorted_insertionSort (· ≤ ·) discovered
  have hsne : sortFids discovered ≠ [] := by
    intro h
    exact hne (List.Perm.eq_nil (h ▸ hperm.symm))
  have hlast : (sortFids discovered).getLast? =
      some ((sortFids discovered).getLast hsne) := List.getLast?_eq_getLast _ hsne
  set m := (sortFids discovered).getLast hsne with hm
  have hbuild : buildCat disk discovered =
      { fids := sortFids discovered,
        active := ((sortFids discovered).getLast?).map (fun v => (⟨v, disk v⟩ : LogFile)),
        archived := (sortFids discovered).dropLast.map
          (fun f => (f, (⟨f, disk f⟩ : LogFile))) } := by
    rw [buildCat, if_neg (by simpa using hne)]
    simp [placeFids_eq disk _ hsne]
  have hmem : m ∈ discovered :=
    hperm.mem_iff.mp (List.mem_of_mem_getLast? (by rw [hlast]; rfl))
  have hsnd : (sortFids discovered).Nodup := hperm.nodup_iff.mpr hnd
  refine ⟨m, hmem, ?_, ?_, ?_⟩
  · intro x hx
    exact sorted_le_getLast hsorted hlast x (hperm.mem_iff.mpr hx)
  · rw [hbuild]
    simp [hlast]
  · intro f
    rw [hbuild]
    simp only [lookup_map_mk]
    constructor
    · intro hf
      by_cases hmemd : f ∈ (sortFids discovered).dropLast
      · have := (mem_dropLast_iff hsnd hlast).mp hmemd
        exact ⟨hperm.mem_iff.mp this.1, this.2⟩
      · simp [hmemd] at hf
    · rintro ⟨hf, hfm⟩
      have : f ∈ (sortFids discovered).dropLast :=
        (mem_dropLast_iff hsnd hlast).mpr ⟨hperm.mem_iff.mpr hf, hfm⟩
      simp [this]

/-- C1 witness: recovery over discovered fids `[2, 1]` makes fid 2 active
and archives exactly fid 1. -/
theorem buildCat_largest_active_rest_archived_witness :
    ([2, 1] ≠ ([] : List Nat)) ∧ List.Nodup [2, 1] ∧
    ∃ m, m ∈ [2, 1] ∧ (∀ x ∈ [2, 1], x ≤ m) ∧
      (buildCat (fun _ => []) [2, 1]).active.map LogFile.fid = some m ∧
      ∀ f, (List.lookup f (buildCat (fun _ => []) [2, 1]).archived).isSome ↔
        (f ∈ [2, 1] ∧ f ≠ m) :=
  ⟨by decide, by decide,
    buildCat_largest_active_rest_archived (fun _ => []) [2, 1] (by decide) (by decide)⟩

/-- C2: rotation correctness — when appending an entry to the active segment
would push its size over the configured maximum `S`, that write mints a new
active segment whose fid is the previous maximum fid of the category plus
one (the active fid is the registry maximum), the position returned is in
the new segment, and the previously active segment becomes retrievable
through the archived lookup path under its old fid. -/
theorem writeEntry_rotation (S : Nat) (st : CatState) (e : List Nat) (lf : LogFile)
    (hg : GoodState st) (ha : st.active = some lf)
    (hover : lf.content.length + e.length > S) :
    (writeEntry S st e).1.active = some ⟨lf.fid + 1, e⟩ ∧
    lf.fid ∈ st.fids ∧
    (∀ x ∈ st.fids, x ≤ lf.fid) ∧
    (writeEntry S st e).2.fid = lf.fid + 1 ∧
    List.lookup lf.fid (writeEntry S st e).1.archived = some lf ∧
    (∀ off len, readAtCat (writeEntry S st e).1 lf.fid off len = readSeg lf off len) := by
  obtain ⟨hsort, hact, hkeys, hpair⟩ := hg
  have hga : getActiveLogFile st = (st, lf) := by
    unfold getActiveLogFile
    rw [ha]
  have hlast : st.fids.getLast? = some lf.fid := by
    rw [← hact, ha]
    rfl
  have hne : st.fids ≠ [] := by
    intro h
    rw [h] at hlast
    simp at hlast
  have hnd : st.fids.Nodup := hsort.nodup
  have hnotmem : lf.fid ∉ st.archived.map Prod.fst := by
    rw [hkeys]
    intro hmem
    exact ((mem_dropLast_iff hnd hlast).mp hmem).2 rfl
  have hwe : writeEntry S st e =
      ({ fids := st.fids ++ [lf.fid + 1],
         active := some ⟨lf.fid + 1, e⟩,
         archived := st.archived ++ [(lf.fid, lf)] },
       ⟨lf.fid + 1, 0, e.length⟩) := by
    rw [writeEntry_eq, hga]
    simp only
    rw [if_pos hover, hlast]
    rfl
  refine ⟨by rw [hwe], ?_, ?_, by rw [hwe], ?_, ?_⟩
  · exact List.mem_of_mem_getLast? (by rw [hlast]; rfl)
  · exact sorted_le_getLast (hsort.imp (fun hab => le_of_lt hab)) hlast
  · rw [hwe]
    exact lookup_append_last lf hnotmem
  · intro off len
    have hactive' : (writeEntry S st e).1.active = some ⟨lf.fid + 1, e⟩ := by rw [hwe]
    rw [readAtCat_some hactive' lf.fid off len]
    rw [if_neg (by simp)]
    rw [hwe]
    rw [lookup_append_last lf hnotmem]

/-- C2 witness: with max size 2, writing a 2-byte entry onto an active
segment of size 1 (fid 1) rotates to fid 2 and archives fid 1. -/
theorem writeEntry_rotation_witness :
    GoodState ⟨[1], some ⟨1, [7]⟩, []⟩ ∧ (7 : Nat) + 2 > 2 ∧
    ((writeEntry 2 ⟨[1], some ⟨1, [7]⟩, []⟩ [8, 9]).1.active = some ⟨2, [8, 9]⟩ ∧
      (1 : Nat) ∈ [1] ∧
      (∀ x ∈ [1], x ≤ 1) ∧
      (writeEntry 2 ⟨[1], some ⟨1, [7]⟩, []⟩ [8, 9]).2.fid = 2 ∧
      List.lookup 1 (writeEntry 2 ⟨[1], some ⟨1, [7]⟩, []⟩ [8, 9]).1.archived =
        some ⟨1, [7]⟩ ∧
      (∀ off len,
        readAtCat (writeEntry 2 ⟨[1], some ⟨1, [7]⟩, []⟩ [8, 9]).1 1 off len =
          readSeg ⟨1, [7]⟩ off len)) :=
  ⟨by decide, by decide,
    writeEntry_rotation 2 ⟨[1], some ⟨1, [7]⟩, []⟩ [8, 9] ⟨1, [7]⟩ (by decide) rfl
      (by decide)⟩

/-- C5: recovery idempotence — from any engine state reached by a sequence
of writes against a fresh directory, closing (a no-op on disk: `Close`
returns `nil` and touches nothing) and re-running recovery over the same
directory yields the same active fid, and every previously archived fid is
still retrievable through the archived lookup and returns byte-identical
content for the same `(fid, offset, length)` query. -/
theorem reopen_preserves_active_and_archived (S : Nat) (es : List (List Nat)) :
    (reopen (runWrites S es)).active.map LogFile.fid =
      (runWrites S es).active.map LogFile.fid ∧
    ∀ f off len, (List.lookup f (runWrites S es).archived).isSome →
      (List.lookup f (reopen (runWrites S es)).archived).isSome ∧
      readAtCat (reopen (runWrites S es)) f off len =
        readAtCat (runWrites S es) f off len := by
  have hg := runWrites_good S es
  have h := reopen_good_eq hg
  refine ⟨h.1, ?_⟩
  intro f off len hf
  have hmem : f ∈ (runWrites S es).archived.map Prod.fst :=
    (lookup_isSome_iff_mem_keys _ _).mp hf
  exact ⟨(h.2 f hmem).1, (h.2 f hmem).2 off len⟩

/-- C5 witness: two writes with max size 5 rotate once; after reopening,
the active fid is unchanged and archived fid 1 reads back identically. -/
theorem reopen_preserves_active_and_archived_witness :
    ((reopen (runWrites 5 [[0, 0, 0], [1, 1, 1]])).active.map LogFile.fid =
      (runWrites 5 [[0, 0, 0], [1, 1, 1]]).active.map LogFile.fid) ∧
    (List.lookup 1 (runWrites 5 [[0, 0, 0], [1, 1, 1]]).archived).isSome ∧
    (List.lookup 1 (reopen (runWrites 5 [[0, 0, 0], [1, 1, 1]])).archived).isSome ∧
    readAtCat (reopen (runWrites 5 [[0, 0, 0], [1, 1, 1]])) 1 0 3 =
      readAtCat (runWrites 5 [[0, 0, 0], [1, 1, 1]]) 1 0 3 :=
  ⟨(reopen_preserves_active_and_archived 5 [[0, 0, 0], [1, 1, 1]]).1,
   by decide,
   ((reopen_preserves_active_and_archived 5 [[0, 0, 0], [1, 1, 1]]).2 1 0 3
     (by decide)).1,
   ((reopen_preserves_active_and_archived 5 [[0, 0, 0], [1, 1, 1]]).2 1 0 3
     (by decide)).2⟩

/-- C9: after recovery the registry slice `fidsMap[category].fids` is a
permutation of the discovered fids, sorted ascending, and — whenever the
category discovered at least one fid — its last element is the active
segment's fid (the active fid is not removed from the registry). -/
theorem buildCat_registry_exact_sorted_last_active (disk : Nat → List Nat)
    (discovered : List Nat) :
    List.Perm (buildCat disk discovered).fids discovered ∧
    List.Sorted (· ≤ ·) (buildCat disk discovered).fids ∧
    (discovered ≠ [] →
      (buildCat disk discovered).active.map LogFile.fid =
        (buildCat disk discovered).fids.getLast?) := by
  by_cases hne : discovered = []
  · subst hne
    refine ⟨by simp [buildCat], by simp [buildCat], fun h => absurd rfl h⟩
  · have hsne : sortFids discovered ≠ [] := by
      intro h
      exact hne (List.Perm.eq_nil (h ▸ (List.perm_insertionSort (· ≤ ·) discovered).symm))
    have hlast : (sortFids discovered).getLast? =
        some ((sortFids discovered).getLast hsne) := List.getLast?_eq_getLast _ hsne
    have hbuild : buildCat disk discovered =
        { fids := sortFids discovered,
          active := ((sortFids discovered).getLast?).map (fun v => (⟨v, disk v⟩ : LogFile)),
          archived := (sortFids discovered).dropLast.map
            (fun f => (f, (⟨f, disk f⟩ : LogFile))) } := by
      rw [buildCat, if_neg (by simpa using hne)]
      simp [placeFids_eq disk _ hsne]
    refine ⟨?_, ?_, fun _ => ?_⟩
    · rw [hbuild]
      exact List.perm_insertionSort (· ≤ ·) discovered
    · rw [hbuild]
      exact List.sorted_insertionSort (· ≤ ·) discovered
    · rw [hbuild]
      simp [hlast]

/-- C9 witness: recovery over discovered fids `[3, 1, 2]` leaves the
registry `[1, 2, 3]` with the active fid 3 as its last element. -/
theorem buildCat_registry_exact_sorted_last_active_witness :
    List.Perm (buildCat (fun _ => []) [3, 1, 2]).fids [3, 1, 2] ∧
    List.Sorted (· ≤ ·) (buildCat (fun _ => []) [3, 1, 2]).fids ∧
    (buildCat (fun _ => []) [3, 1, 2]).active.map LogFile.fid =
      (buildCat (fun _ => []) [3, 1, 2]).fids.getLast? :=
  ⟨(buildCat_registry_exact_sorted_last_active (fun _ => []) [3, 1, 2]).1,
    (buildCat_registry_exact_sorted_last_active (fun _ => []) [3, 1, 2]).2.1,
    (buildCat_registry_exact_sorted_last_active (fun _ => []) [3, 1, 2]).2.2 (by decide)⟩

end LazyDB
